import Mathlib

/-!
Verification of the goline streaming assistant-message parser and
SEARCH/REPLACE diff reconciliation engine.

The Go sources are shallowly embedded over `Str := List Char`:
Go strings become char lists (Go byte indices coincide with char indices
on the ASCII inputs exercised here, and the per-char embedding mirrors the
rune loop of the parser), Go slice expressions `s[a:b]` become
`goSlice`/`goSliceFrom` which return `none` exactly when Go would panic
with a slice-bounds error, and `strings.Index`-style sentinel `-1` results
become `Option Nat` or explicit `Int` values where the sentinel is
compared against.

  * `LineTrimmedFallbackMatch`, `BlockAnchorFallbackMatch`,
    `ConstructNewFileContent` embed
    internal/core/assistant-message/diff.go.
  * `parseAssistantMessage` embeds
    internal/assistant/message/parser.go together with the tool and
    parameter name tables of the assistantmessage package.
-/

namespace Goline

/-- Characters of a Go string. -/
abbrev Str := List Char

/-- The rune set of `unicode.IsSpace`, which Go's `strings.TrimSpace` strips. -/
def isGoSpace (c : Char) : Bool :=
  (9 ≤ c.toNat && c.toNat ≤ 13) || c.toNat = 32 || c.toNat = 0x85 || c.toNat = 0xA0 ||
  c.toNat = 0x1680 || (0x2000 ≤ c.toNat && c.toNat ≤ 0x200A) ||
  c.toNat = 0x2028 || c.toNat = 0x2029 || c.toNat = 0x202F || c.toNat = 0x205F ||
  c.toNat = 0x3000

/-- Strip leading space runes. -/
def trimLeft (s : Str) : Str := s.dropWhile isGoSpace

/-- Strip trailing space runes. -/
def trimRight (s : Str) : Str := (s.reverse.dropWhile isGoSpace).reverse

/-- Go `strings.TrimSpace`. -/
def trimSpace (s : Str) : Str := trimRight (trimLeft s)

/-- Go `strings.Split(s, "\n")`: never returns an empty list. -/
def splitNl : Str → List Str
  | [] => [[]]
  | c :: rest =>
    if c = '\n' then [] :: splitNl rest
    else
      match splitNl rest with
      | [] => [[c]]
      | h :: t => (c :: h) :: t

/-- Join line bodies, terminating each with a newline (the diff engine's
`line + "\n"` accumulation). -/
def joinNl (lines : List Str) : Str := (lines.map (fun l => l ++ ['\n'])).flatten

/-- Go `strings.Index`, as an option instead of the `-1` sentinel. -/
def firstIndexOf (s sub : Str) : Option Nat :=
  if sub.isPrefixOf s then some 0
  else
    match s with
    | [] => none
    | _ :: t => (firstIndexOf t sub).map (· + 1)

/-- Go `strings.LastIndex`, as an option instead of the `-1` sentinel. -/
def lastIndexOf (s sub : Str) : Option Nat :=
  match s with
  | [] => if sub.isPrefixOf ([] : Str) then some 0 else none
  | _ :: t =>
    match lastIndexOf t sub with
    | some k => some (k + 1)
    | none => if sub.isPrefixOf s then some 0 else none

/-- Go slice `s[a:b]`: `none` is a slice-bounds panic. -/
def goSlice (s : Str) (a b : Int) : Option Str :=
  if 0 ≤ a ∧ a ≤ b ∧ b ≤ (s.length : Int) then
    some ((s.take b.toNat).drop a.toNat)
  else none

/-- Go slice `s[a:]`: `none` is a slice-bounds panic. -/
def goSliceFrom (s : Str) (a : Int) : Option Str :=
  if 0 ≤ a ∧ a ≤ (s.length : Int) then some (s.drop a.toNat) else none

/-! ### Diff markers (diff.go, `SearchMarker`/`DividerMarker`/`ReplaceMarker`) -/

/-- The marker line `<<<<<<< SEARCH`. -/
def searchMarker : Str := "<<<<<<< SEARCH".toList

/-- The marker line `=======`. -/
def dividerMarker : Str := "=======".toList

/-- The marker line `>>>>>>> REPLACE`. -/
def replaceMarker : Str := ">>>>>>> REPLACE".toList

/-- The error text of diff.go line 196. -/
def errSearchNotFound : Str := "the SEARCH block does not match anything in the file".toList

/-! ### Fallback matchers (diff.go, `LineTrimmedFallbackMatch` and
`BlockAnchorFallbackMatch`) -/

/-- Drop a trailing empty line (diff.go lines 24-26 and 84-86). -/
def dropTrailingEmpty (lines : List Str) : List Str :=
  if lines ≠ [] ∧ lines.getLast? = some [] then lines.dropLast else lines

/-- The `startLineNum` loop of diff.go lines 29-34 (and 93-98): counts the
lines wholly before character offset `startIndex`. -/
def fsln : List Str → Nat → Nat → Nat
  | [], _, _ => 0
  | l :: rest, startIndex, currentIndex =>
    if currentIndex < startIndex then fsln rest startIndex (currentIndex + l.length + 1) + 1
    else 0

/-- Character offset of line `i`: the sum `len(lines[k]) + 1` for `k < i`
(diff.go lines 54-57 and 113-116). -/
def cumLen : List Str → Nat → Nat
  | _, 0 => 0
  | [], _ + 1 => 0
  | l :: rest, i + 1 => l.length + 1 + cumLen rest i

/-- Inner loop of diff.go lines 41-49: all search lines trim-match starting
at original line `i`. -/
def ltMatchesAt (originalLines searchLines : List Str) (i : Nat) : Bool :=
  (List.range searchLines.length).all fun j =>
    trimSpace (originalLines.getD (i + j) []) = trimSpace (searchLines.getD j [])

/-- The candidate-position loop of diff.go line 37, with explicit fuel for
the upper bound `len(originalLines) - len(searchLines)`. -/
def ltScan (originalLines searchLines : List Str) : Nat → Nat → Option Nat
  | _, 0 => none
  | i, fuel + 1 =>
    if ltMatchesAt originalLines searchLines i then some i
    else ltScan originalLines searchLines (i + 1) fuel

/-- diff.go `LineTrimmedFallbackMatch`; `none` is the "no line-trimmed match
found" error. -/
def lineTrimmedFallbackMatch (originalContent searchContent : Str) (startIndex : Nat) :
    Option (Nat × Nat) :=
  let originalLines := splitNl originalContent
  let searchLines := dropTrailingEmpty (splitNl searchContent)
  let startLineNum := fsln originalLines startIndex 0
  if searchLines.length ≤ originalLines.length ∧
      startLineNum ≤ originalLines.length - searchLines.length then
    match ltScan originalLines searchLines startLineNum
        (originalLines.length - searchLines.length + 1 - startLineNum) with
    | some i =>
      some (cumLen originalLines i,
        cumLen originalLines i + cumLen (originalLines.drop i) searchLines.length)
    | none => none
  else none

/-- Anchor-position loop of diff.go lines 101-110. -/
def baScan (originalLines : List Str) (firstLineSearch lastLineSearch : Str)
    (searchBlockSize : Nat) : Nat → Nat → Option Nat
  | _, 0 => none
  | i, fuel + 1 =>
    if trimSpace (originalLines.getD i []) = firstLineSearch ∧
        trimSpace (originalLines.getD (i + searchBlockSize - 1) []) = lastLineSearch then
      some i
    else baScan originalLines firstLineSearch lastLineSearch searchBlockSize (i + 1) fuel

/-- diff.go `BlockAnchorFallbackMatch`; `none` is the "too short" or
"no block anchor match found" error. Note the `< 3` length check happens
before the trailing empty line is dropped (lines 78-86). -/
def blockAnchorFallbackMatch (originalContent searchContent : Str) (startIndex : Nat) :
    Option (Nat × Nat) :=
  let originalLines := splitNl originalContent
  let searchLines0 := splitNl searchContent
  if searchLines0.length < 3 then none
  else
    let searchLines := dropTrailingEmpty searchLines0
    let firstLineSearch := trimSpace (searchLines.getD 0 [])
    let lastLineSearch := trimSpace (searchLines.getD (searchLines.length - 1) [])
    let searchBlockSize := searchLines.length
    let startLineNum := fsln originalLines startIndex 0
    if searchBlockSize ≤ originalLines.length ∧
        startLineNum ≤ originalLines.length - searchBlockSize then
      match baScan originalLines firstLineSearch lastLineSearch searchBlockSize startLineNum
          (originalLines.length - searchBlockSize + 1 - startLineNum) with
      | some i =>
        some (cumLen originalLines i,
          cumLen originalLines i + cumLen (originalLines.drop i) searchBlockSize)
      | none => none
    else none

/-! ### ConstructNewFileContent (diff.go lines 129-241) -/

/-- The match cascade of diff.go lines 177-199: exact `strings.Index` on the
remaining content, then line-trimmed fallback, then block-anchor fallback.
Callers guarantee `lpi ≤ originalContent.length`. -/
def findMatch (originalContent searchContent : Str) (lpi : Nat) : Option (Nat × Nat) :=
  match firstIndexOf (originalContent.drop lpi) searchContent with
  | some k => some (lpi + k, lpi + k + searchContent.length)
  | none =>
    match lineTrimmedFallbackMatch originalContent searchContent lpi with
    | some r => some r
    | none => blockAnchorFallbackMatch originalContent searchContent lpi

/-- Loop state of `ConstructNewFileContent`, plus two ghost traces:
`attempts` records each `(searchContent, lastProcessedIndex)` pair for which
the match cascade was consulted, and `matches` records every
`(searchContent, searchMatchIndex, searchEndIndex)` the algorithm settled
on (the empty-search special case included). The index fields are `Int`
because the Go code uses `int` with `-1` sentinels. -/
structure DiffState where
  result : Str
  lastProcessedIndex : Int
  currentSearchContent : Str
  currentReplaceContent : Str
  inSearch : Bool
  inReplace : Bool
  searchMatchIndex : Int
  searchEndIndex : Int
  attempts : List (Str × Nat)
  matchTrace : List (Str × Nat × Nat)
  deriving Repr, DecidableEq

/-- Initial state (diff.go lines 131-140). -/
def initDiffState : DiffState :=
  { result := [], lastProcessedIndex := 0, currentSearchContent := [],
    currentReplaceContent := [], inSearch := false, inReplace := false,
    searchMatchIndex := -1, searchEndIndex := -1, attempts := [], matchTrace := [] }

/-- How a run of the diff loop aborts: a returned error, or a Go panic from
an out-of-range slice. -/
inductive DiffAbort where
  | fail (msg : Str)
  | goPanic
  deriving Repr, DecidableEq

/-- Divider-marker handling (diff.go lines 162-204). -/
def handleDivider (originalContent : Str) (st : DiffState) :
    DiffState ⊕ (DiffAbort × DiffState) :=
  let st := { st with inSearch := false, inReplace := true }
  if st.currentSearchContent = [] then
    let se : Nat × Nat :=
      if originalContent.length = 0 then (0, 0) else (0, originalContent.length)
    match goSlice originalContent st.lastProcessedIndex (se.1 : Int) with
    | none => Sum.inr (DiffAbort.goPanic, st)
    | some piece =>
      Sum.inl { st with
        searchMatchIndex := (se.1 : Int)
        searchEndIndex := (se.2 : Int)
        result := st.result ++ piece
        matchTrace := st.matchTrace ++ [(st.currentSearchContent, se.1, se.2)] }
  else
    match goSliceFrom originalContent st.lastProcessedIndex with
    | none => Sum.inr (DiffAbort.goPanic, st)
    | some _ =>
      let lpiN := st.lastProcessedIndex.toNat
      let st := { st with attempts := st.attempts ++ [(st.currentSearchContent, lpiN)] }
      match findMatch originalContent st.currentSearchContent lpiN with
      | none => Sum.inr (DiffAbort.fail errSearchNotFound, st)
      | some (a, b) =>
        match goSlice originalContent st.lastProcessedIndex (a : Int) with
        | none => Sum.inr (DiffAbort.goPanic, st)
        | some piece =>
          Sum.inl { st with
            searchMatchIndex := (a : Int)
            searchEndIndex := (b : Int)
            result := st.result ++ piece
            matchTrace := st.matchTrace ++ [(st.currentSearchContent, a, b)] }

/-- One line of the loop body of `ConstructNewFileContent`
(diff.go lines 154-233). -/
def processLine (originalContent line : Str) (st : DiffState) :
    DiffState ⊕ (DiffAbort × DiffState) :=
  if line = searchMarker then
    Sum.inl { st with
      inSearch := true
      currentSearchContent := []
      currentReplaceContent := [] }
  else if line = dividerMarker then
    handleDivider originalContent st
  else if line = replaceMarker then
    Sum.inl { st with
      lastProcessedIndex := st.searchEndIndex
      inSearch := false
      inReplace := false
      currentSearchContent := []
      currentReplaceContent := []
      searchMatchIndex := -1
      searchEndIndex := -1 }
  else if st.inSearch then
    Sum.inl { st with currentSearchContent := st.currentSearchContent ++ line ++ ['\n'] }
  else if st.inReplace then
    Sum.inl { st with
      currentReplaceContent := st.currentReplaceContent ++ line ++ ['\n']
      result := if st.searchMatchIndex ≠ -1 then st.result ++ line ++ ['\n'] else st.result }
  else Sum.inl st

/-- Run the loop over all lines; on abort the state at the abort point is
kept alongside the abort reason. -/
def processLines (originalContent : Str) : List Str → DiffState →
    DiffState × Option DiffAbort
  | [], st => (st, none)
  | l :: ls, st =>
    match processLine originalContent l st with
    | Sum.inl st' => processLines originalContent ls st'
    | Sum.inr (ab, st') => (st', some ab)

/-- Does a line look like the beginning of a marker without being one
(diff.go lines 148-149)? -/
def looksLikePartialMarker (l : Str) : Bool :=
  (l.head? = some '<' || l.head? = some '=' || l.head? = some '>') &&
  l ≠ searchMarker && l ≠ dividerMarker && l ≠ replaceMarker

/-- Defensive pre-step of diff.go lines 144-152: drop the last line when it
looks like a marker still being streamed. -/
def dropPartialMarker (lines : List Str) : List Str :=
  match lines.getLast? with
  | none => lines
  | some l => if looksLikePartialMarker l then lines.dropLast else lines

/-- The effective line list `ConstructNewFileContent` iterates over. -/
def cnfLines (diffContent : Str) : List Str := dropPartialMarker (splitNl diffContent)

/-- The loop run underlying `ConstructNewFileContent`. -/
def cnfRun (diffContent originalContent : Str) : DiffState × Option DiffAbort :=
  processLines originalContent (cnfLines diffContent) initDiffState

/-- Outcome of `ConstructNewFileContent`: the returned `(string, error)`
pair, or a Go panic. -/
inductive DiffOutcome where
  | ok (res : Str)
  | errRes (res : Str) (msg : Str)
  | goPanic
  deriving Repr, DecidableEq

/-- diff.go `ConstructNewFileContent`. -/
def constructNewFileContent (diffContent originalContent : Str) (isFinal : Bool) :
    DiffOutcome :=
  match cnfRun diffContent originalContent with
  | (st, none) =>
    if isFinal ∧ st.lastProcessedIndex < (originalContent.length : Int) then
      match goSliceFrom originalContent st.lastProcessedIndex with
      | none => DiffOutcome.goPanic
      | some rest => DiffOutcome.ok (st.result ++ rest)
    else DiffOutcome.ok st.result
  | (_, some (DiffAbort.fail msg)) => DiffOutcome.errRes [] msg
  | (_, some DiffAbort.goPanic) => DiffOutcome.goPanic

/-! ### Streaming assistant-message parser
(internal/assistant/message/parser.go with the name tables of
internal/core/assistant-message) -/

/-- Table `AllToolUseNames` of the assistantmessage package, in declaration
order. -/
def allToolUseNames : List Str :=
  ["execute_command", "read_file", "write_to_file", "replace_in_file",
   "search_files", "list_files", "list_code_definition_names", "browser_action",
   "use_mcp_tool", "access_mcp_resource", "ask_followup_question",
   "plan_mode_response", "attempt_completion"].map String.toList

/-- Table `AllToolParamNames` of the assistantmessage package, in declaration
order. -/
def allToolParamNames : List Str :=
  ["command", "requires_approval", "path", "content", "diff", "regex",
   "file_pattern", "recursive", "action", "url", "coordinate", "text",
   "server_name", "tool_name", "arguments", "uri", "question", "response",
   "result"].map String.toList

/-- The constant `WriteToFileToolName`. -/
def writeToFileToolName : Str := "write_to_file".toList

/-- The constant `ContentParam`. -/
def contentParam : Str := "content".toList

/-- An opening tag `<name>`. -/
def openingTag (name : Str) : Str := '<' :: name ++ ['>']

/-- A closing tag `</name>`. -/
def closingTag (name : Str) : Str := '<' :: '/' :: name ++ ['>']

/-- A parsed content block: `TextContent` or `ToolUse` with its `Params`
map (modelled as an in-place-overwriting association list) and `Partial`
flag. -/
inductive Block where
  | text (content : Str) (isPart : Bool)
  | toolUse (name : Str) (params : List (Str × Str)) (isPart : Bool)
  deriving Repr, DecidableEq

/-- The `Partial` flag of a block. -/
def Block.isPartFlag : Block → Bool
  | Block.text _ p => p
  | Block.toolUse _ _ p => p

/-- Go map assignment `params[k] = v` on the association-list model. -/
def setParam : List (Str × Str) → Str → Str → List (Str × Str)
  | [], k, v => [(k, v)]
  | (k', v') :: rest, k, v =>
    if k' = k then (k, v) :: rest else (k', v') :: setParam rest k v

/-- The open tool use under construction (`currentToolUse`). -/
structure ToolCB where
  name : Str
  params : List (Str × Str)
  isPart : Bool
  deriving Repr, DecidableEq

/-- Parser loop state: the local variables of `ParseAssistantMessage`.
Indices count chars of `accumulator`, matching Go's byte indices on the
ASCII tag alphabet. -/
structure PState where
  contentBlocks : List Block
  currentText : Option (Str × Bool)
  currentTextStart : Nat
  currentToolUse : Option ToolCB
  currentToolUseStart : Nat
  currentParamName : Str
  currentParamValueStart : Nat
  accumulator : Str
  deriving Repr, DecidableEq

/-- Initial parser state. -/
def initPState : PState :=
  { contentBlocks := [], currentText := none, currentTextStart := 0,
    currentToolUse := none, currentToolUseStart := 0, currentParamName := [],
    currentParamValueStart := 0, accumulator := [] }

/-- parser.go lines 23-36: accumulating a parameter value, closing it on
the `</param>` suffix. -/
def stepParamValue (st : PState) (tu : ToolCB) : PState :=
  let currentParamValue := st.accumulator.drop st.currentParamValueStart
  let tag := closingTag st.currentParamName
  if tag.isSuffixOf currentParamValue then
    let paramValue := currentParamValue.take (currentParamValue.length - tag.length)
    { st with
      currentToolUse := some { tu with
        params := setParam tu.params st.currentParamName (trimSpace paramValue) }
      currentParamName := [] }
  else st

/-- parser.go lines 61-71: the `write_to_file` special case re-deriving the
`content` parameter between the first `<content>` and the last
`</content>` of the tool's accumulated text. -/
def stepWriteToFileContent (st : PState) (tu : ToolCB) : PState :=
  if tu.name = writeToFileToolName ∧ (closingTag contentParam).isSuffixOf st.accumulator then
    let toolContent := st.accumulator.drop st.currentToolUseStart
    let contentStartIndex : Int :=
      (match firstIndexOf toolContent (openingTag contentParam) with
       | some k => (k : Int)
       | none => -1) + (openingTag contentParam).length
    let contentEndIndex : Int :=
      match lastIndexOf toolContent (closingTag contentParam) with
      | some k => (k : Int)
      | none => -1
    if contentStartIndex ≠ -1 ∧ contentEndIndex ≠ -1 ∧ contentStartIndex < contentEndIndex then
      { st with
        currentToolUse := some { tu with
          params := setParam tu.params contentParam
            (trimSpace ((toolContent.take contentEndIndex.toNat).drop
              contentStartIndex.toNat)) } }
    else st
  else st

/-- parser.go lines 40-76: inside a tool use, no parameter open. -/
def stepInsideTool (st : PState) (tu : ToolCB) : PState :=
  let currentToolValue := st.accumulator.drop st.currentToolUseStart
  if (closingTag tu.name).isSuffixOf currentToolValue then
    { st with
      contentBlocks := st.contentBlocks ++ [Block.toolUse tu.name tu.params false]
      currentToolUse := none }
  else
    let st :=
      match allToolParamNames.find? (fun p => (openingTag p).isSuffixOf st.accumulator) with
      | some p => { st with currentParamName := p, currentParamValueStart := st.accumulator.length }
      | none => st
    stepWriteToFileContent st tu

/-- parser.go lines 80-116: outside any tool use. -/
def stepOutsideTool (st : PState) (c : Char) : PState :=
  match allToolUseNames.find? (fun t => (openingTag t).isSuffixOf st.accumulator) with
  | some tname =>
    let st := { st with
      currentToolUse := some { name := tname, params := [], isPart := true }
      currentToolUseStart := st.accumulator.length }
    match st.currentText with
    | some txt =>
      let content := txt.1
      let tagStart : Int := (content.length : Int) - ((openingTag tname).length : Int) + 1
      let content :=
        if 0 < tagStart then trimSpace (content.take tagStart.toNat) else content
      { st with
        contentBlocks := st.contentBlocks ++ [Block.text content false]
        currentText := none }
    | none => st
  | none =>
    match st.currentText with
    | none =>
      { st with
        currentTextStart := st.accumulator.length - 1
        currentText := some ([c], true) }
    | some txt =>
      { st with currentText := some (trimSpace (st.accumulator.drop st.currentTextStart), txt.2) }

/-- Dispatch of the loop body over the parser mode (parser.go lines 23,
40 and 78). -/
def pstepCore (st : PState) (c : Char) : PState :=
  match st.currentToolUse with
  | some tu =>
    if st.currentParamName ≠ [] then stepParamValue st tu
    else stepInsideTool st tu
  | none => stepOutsideTool st c

/-- One iteration of the rune loop of `ParseAssistantMessage`
(parser.go lines 19-117): `accumulator += string(char)` then the body. -/
def pstep (st : PState) (c : Char) : PState :=
  pstepCore { st with accumulator := st.accumulator ++ [c] } c

/-- parser.go lines 119-132: flush the still-open block as partial. -/
def pfinalize (st : PState) : List Block :=
  let blocks :=
    match st.currentToolUse with
    | some tu =>
      let tu :=
        if st.currentParamName ≠ [] then
          { tu with
            params := setParam tu.params st.currentParamName
              (trimSpace (st.accumulator.drop st.currentParamValueStart)) }
        else tu
      st.contentBlocks ++ [Block.toolUse tu.name tu.params tu.isPart]
    | none => st.contentBlocks
  match st.currentText with
  | some txt => blocks ++ [Block.text txt.1 txt.2]
  | none => blocks

/-- parser.go `ParseAssistantMessage`. -/
def parseAssistantMessage (assistantMessage : Str) : List Block :=
  pfinalize (assistantMessage.foldl pstep initPState)

/-! ### Derived notions used by the statements -/

/-- Well-formed marker structure: the marker lines among `lines` follow the
cyclic SEARCH, divider, REPLACE order starting in phase `k` (0 = expecting
`<<<<<<< SEARCH`, 1 = expecting `=======`, 2 = expecting
`>>>>>>> REPLACE`); a truncated trailing block is allowed. -/
def goodMarkers : List Str → Nat → Bool
  | [], _ => true
  | l :: ls, k =>
    if l = searchMarker then k = 0 && goodMarkers ls 1
    else if l = dividerMarker then k = 1 && goodMarkers ls 2
    else if l = replaceMarker then k = 2 && goodMarkers ls 0
    else goodMarkers ls k

/-- End offset of the last recorded match, `lo` if none. -/
def lastStop (lo : Nat) : List (Str × Nat × Nat) → Nat
  | [] => lo
  | (_, _, b) :: rest => lastStop b rest

/-- Matches advance: each starts at or after the previous end offset and
covers a non-empty range. -/
def matchChain (lo : Nat) : List (Str × Nat × Nat) → Bool
  | [] => true
  | (_, a, b) :: rest => lo ≤ a && a < b && matchChain b rest

/-- Join lines with newline separators (left inverse of `splitNl`). -/
def joinLines : List Str → Str
  | [] => []
  | [x] => x
  | x :: y :: xs => x ++ '\n' :: joinLines (y :: xs)

/-- The diff text of a single SEARCH/REPLACE block with empty search
section and the given replace lines. -/
def mkEmptySearchDiff (rs : List Str) : Str :=
  joinLines ([searchMarker, dividerMarker] ++ rs ++ [replaceMarker])

/-- The diff text with its last line removed. -/
def removeLastLine (d : Str) : Str := joinLines ((splitNl d).dropLast)

/-- The completed (non-partial) prefix of a parse result. -/
def completedBlocks (msg : Str) : List Block :=
  (parseAssistantMessage msg).takeWhile (fun b => !b.isPartFlag)

/-- The state carried by a step outcome, aborted or not. -/
def stepState : DiffState ⊕ (DiffAbort × DiffState) → DiffState
  | Sum.inl st => st
  | Sum.inr (_, st) => st

/-- Every recorded match attempt found a match. -/
def attemptsOK (C : Str) (st : DiffState) : Prop :=
  ∀ p ∈ st.attempts, findMatch C p.1 p.2 ≠ none

/-- Invariant of the diff loop relating the match trace to the cursor
`lastProcessedIndex`, indexed by the marker phase `k` of `goodMarkers`. -/
def DInv (st : DiffState) (k : Nat) : Prop :=
  matchChain 0 st.matchTrace = true ∧
  (k = 2 → st.searchEndIndex = (lastStop 0 st.matchTrace : Int)) ∧
  (k ≠ 2 → 0 ≤ st.lastProcessedIndex ∧
    (lastStop 0 st.matchTrace : Int) ≤ st.lastProcessedIndex)

/-- All parameter values of the list are fixed points of `trimSpace`. -/
def trimmedParams (ps : List (Str × Str)) : Prop := ∀ kv ∈ ps, trimSpace kv.2 = kv.2

/-- Boolean form of `trimmedParams` on a block. -/
def blockParamsTrimmed (b : Block) : Bool :=
  match b with
  | Block.text _ _ => true
  | Block.toolUse _ ps _ => ps.all (fun kv => trimSpace kv.2 == kv.2)

/-- The structural invariant of the parser loop: every emitted block is
completed, the open tool or text block (at most one of the two exists)
is marked partial, and every stored parameter value is trimmed. -/
def PInv (st : PState) : Prop :=
  (∀ b ∈ st.contentBlocks, b.isPartFlag = false) ∧
  (∀ tu, st.currentToolUse = some tu → tu.isPart = true ∧ trimmedParams tu.params) ∧
  (∀ txt, st.currentText = some txt → txt.2 = true) ∧
  (st.currentToolUse = none ∨ st.currentText = none) ∧
  (∀ b ∈ st.contentBlocks, ∀ n ps p, b = Block.toolUse n ps p → trimmedParams ps)

/-! ## Theorems -/

/-! ### Auxiliary lemmas on string primitives -/

theorem dropWhile_idem (p : Char → Bool) :
    ∀ l : Str, List.dropWhile p (List.dropWhile p l) = List.dropWhile p l
  | [] => rfl
  | c :: t => by
    rcases hc : p c with _ | _ <;> simp [List.dropWhile_cons, hc, dropWhile_idem p t]

theorem trimLeft_idem (l : Str) : trimLeft (trimLeft l) = trimLeft l :=
  dropWhile_idem isGoSpace l

theorem trimRight_idem (l : Str) : trimRight (trimRight l) = trimRight l := by
  simp [trimRight, dropWhile_idem]

theorem trimRight_prefix (l : Str) : trimRight l <+: l := by
  have h : (List.dropWhile isGoSpace l.reverse).reverse <+: l.reverse.reverse :=
    List.reverse_prefix.mpr (List.dropWhile_suffix isGoSpace)
  rwa [List.reverse_reverse] at h

theorem trimLeft_trimRight (l : Str) (h : trimLeft l = l) :
    trimLeft (trimRight l) = trimRight l := by
  cases l with
  | nil => rfl
  | cons c t =>
    have hc : isGoSpace c = false := by
      by_contra hcc
      have hcc' : isGoSpace c = true := eq_true_of_ne_false hcc
      rw [trimLeft, List.dropWhile_cons, hcc', if_pos rfl] at h
      have hlen : (List.dropWhile isGoSpace t).length ≤ t.length :=
        (List.dropWhile_suffix isGoSpace).length_le
      have hlen2 := congrArg List.length h
      simp only [List.length_cons] at hlen2
      omega
    rcases hp : trimRight (c :: t) with _ | ⟨d, u⟩
    · rfl
    · have hpre : (d :: u) <+: (c :: t) := hp ▸ trimRight_prefix (c :: t)
      have hd : d = c := by
        obtain ⟨r, hr⟩ := hpre
        exact (List.cons_eq_cons.mp hr).1
      rw [trimLeft, List.dropWhile_cons, hd, hc]
      simp

theorem trimSpace_idem (l : Str) : trimSpace (trimSpace l) = trimSpace l := by
  rw [trimSpace, trimSpace, trimLeft_trimRight (trimLeft l) (trimLeft_idem l), trimRight_idem]

/-! ### C3 -/

/-- C3 (amended): `BlockAnchorFallbackMatch` rejects exactly the search
contents that split on newline into fewer than 3 parts; the three-part
count is taken before the trailing empty line is dropped, so a
newline-terminated two-line body passes the check (see the
counterexample). -/
theorem c3_block_anchor_requires_three_split_parts
    (originalContent searchContent : Str) (startIndex : Nat)
    (h : (splitNl searchContent).length < 3) :
    blockAnchorFallbackMatch originalContent searchContent startIndex = none := by
  rw [blockAnchorFallbackMatch]
  simp only [h, if_pos]

/-- Witness for C3: a two-line search body without a trailing newline
splits into 2 parts and is rejected at any start index. -/
theorem c3_block_anchor_requires_three_split_parts_witness :
    (splitNl "a\nb".toList).length < 3 ∧
    blockAnchorFallbackMatch "x\na\nb\ny".toList "a\nb".toList 0 = none :=
  ⟨by decide,
   c3_block_anchor_requires_three_split_parts "x\na\nb\ny".toList "a\nb".toList 0 (by decide)⟩

/-! ### Parser loop invariants -/

theorem trimmedParams_setParam (k v : Str) (hv : trimSpace v = v) :
    ∀ ps, trimmedParams ps → trimmedParams (setParam ps k v) := by
  intro ps
  induction ps with
  | nil =>
    intro _ kv hkv
    simp only [setParam, List.mem_singleton] at hkv
    simp [hkv, hv]
  | cons hd tl ih =>
    obtain ⟨k', v'⟩ := hd
    intro h kv hkv
    rw [setParam] at hkv
    by_cases hk : k' = k
    · rw [if_pos hk] at hkv
      rcases List.mem_cons.mp hkv with hkv | hkv
      · simp [hkv, hv]
      · exact h kv (List.mem_cons_of_mem _ hkv)
    · rw [if_neg hk] at hkv
      rcases List.mem_cons.mp hkv with hkv | hkv
      · exact h kv (hkv ▸ List.mem_cons_self _ _)
      · exact ih (fun kv' hkv' => h kv' (List.mem_cons_of_mem _ hkv')) kv hkv

theorem pinv_init : PInv initPState := by
  refine ⟨?_, ?_, ?_, ?_, ?_⟩ <;> simp [initPState, PInv]

theorem pinv_stepParamValue (st : PState) (tu : ToolCB)
    (htu : st.currentToolUse = some tu) (h : PInv st) : PInv (stepParamValue st tu) := by
  obtain ⟨h1, h2, h3, h4, h5⟩ := h
  rw [stepParamValue]
  split
  · refine ⟨h1, ?_, h3, ?_, h5⟩
    · intro tu' htu'
      simp only [Option.some.injEq] at htu'
      subst htu'
      exact ⟨(h2 tu htu).1,
        trimmedParams_setParam _ _ (trimSpace_idem _) _ (h2 tu htu).2⟩
    · rcases h4 with h4 | h4
      · rw [htu] at h4; exact absurd h4 (by simp)
      · exact Or.inr h4
  · exact ⟨h1, h2, h3, h4, h5⟩

theorem pinv_stepWriteToFileContent (st : PState) (tu : ToolCB)
    (htu : st.currentToolUse = some tu) (h : PInv st) :
    PInv (stepWriteToFileContent st tu) := by
  obtain ⟨h1, h2, h3, h4, h5⟩ := h
  rw [stepWriteToFileContent]
  split
  · dsimp only
    split
    · refine ⟨h1, ?_, h3, ?_, h5⟩
      · intro tu' htu'
        simp only [Option.some.injEq] at htu'
        subst htu'
        exact ⟨(h2 tu htu).1,
          trimmedParams_setParam _ _ (trimSpace_idem _) _ (h2 tu htu).2⟩
      · rcases h4 with h4 | h4
        · rw [htu] at h4; exact absurd h4 (by simp)
        · exact Or.inr h4
    · exact ⟨h1, h2, h3, h4, h5⟩
  · exact ⟨h1, h2, h3, h4, h5⟩

theorem pinv_stepInsideTool (st : PState) (tu : ToolCB)
    (htu : st.currentToolUse = some tu) (h : PInv st) : PInv (stepInsideTool st tu) := by
  obtain ⟨h1, h2, h3, h4, h5⟩ := h
  rw [stepInsideTool]
  split
  · -- closing tag: tool block flushed as completed
    refine ⟨?_, by simp, h3, Or.inl rfl, ?_⟩
    · intro b hb
      rcases List.mem_append.mp hb with hb | hb
      · exact h1 b hb
      · simp only [List.mem_singleton] at hb
        simp [hb, Block.isPartFlag]
    · intro b hb n ps p hbe
      rcases List.mem_append.mp hb with hb | hb
      · exact h5 b hb n ps p hbe
      · simp only [List.mem_singleton] at hb
        subst hb
        cases hbe
        exact (h2 tu htu).2
  · -- param-open scan then write_to_file special case
    rcases hft : allToolParamNames.find? (fun p => (openingTag p).isSuffixOf st.accumulator)
      with _ | p <;> simp only [hft]
    · exact pinv_stepWriteToFileContent st tu htu ⟨h1, h2, h3, h4, h5⟩
    · exact pinv_stepWriteToFileContent _ tu htu ⟨h1, h2, h3, h4, h5⟩

theorem pinv_stepOutsideTool (st : PState) (c : Char)
    (htu : st.currentToolUse = none) (h : PInv st) : PInv (stepOutsideTool st c) := by
  obtain ⟨h1, h2, h3, h4, h5⟩ := h
  rw [stepOutsideTool]
  rcases hft : allToolUseNames.find? (fun t => (openingTag t).isSuffixOf st.accumulator)
    with _ | tname <;> simp only [hft] <;> (try dsimp only)
  · -- no tool opened: text block handling
    rcases htxt : st.currentText with _ | txt <;> simp only [htxt]
    · exact ⟨h1, h2, by simp, Or.inl htu, h5⟩
    · exact ⟨h1, h2, by simpa using h3 txt htxt, Or.inl htu, h5⟩
  · -- a tool use starts, closing any open text block
    rcases htxt : st.currentText with _ | txt <;> simp only [htxt]
    · exact ⟨h1, by simp [trimmedParams], by simp, Or.inr rfl, h5⟩
    · refine ⟨?_, by simp [trimmedParams], by simp, Or.inr rfl, ?_⟩
      · intro b hb
        rcases List.mem_append.mp hb with hb | hb
        · exact h1 b hb
        · simp only [List.mem_singleton] at hb
          simp [hb, Block.isPartFlag]
      · intro b hb n ps p hbe
        rcases List.mem_append.mp hb with hb | hb
        · exact h5 b hb n ps p hbe
        · simp only [List.mem_singleton] at hb
          subst hb
          cases hbe

theorem pinv_pstepCore (st : PState) (c : Char) (h : PInv st) : PInv (pstepCore st c) := by
  rw [pstepCore]
  rcases htu : st.currentToolUse with _ | tu <;> simp only [htu]
  · exact pinv_stepOutsideTool st c htu h
  · split
    · exact pinv_stepParamValue st tu htu h
    · exact pinv_stepInsideTool st tu htu h

theorem pinv_pstep (st : PState) (c : Char) (h : PInv st) : PInv (pstep st c) :=
  pinv_pstepCore { st with accumulator := st.accumulator ++ [c] } c h

theorem pinv_foldl (s : Str) : ∀ st : PState, PInv st → PInv (s.foldl pstep st) := by
  induction s with
  | nil => intro st h; exact h
  | cons c t ih => intro st h; exact ih (pstep st c) (pinv_pstep st c h)

/-! ### Blocks are append-only and the finalizer only adds partial blocks -/

theorem stepParamValue_blocks (st : PState) (tu : ToolCB) :
    (stepParamValue st tu).contentBlocks = st.contentBlocks := by
  rw [stepParamValue]; split <;> rfl

theorem stepWriteToFileContent_blocks (st : PState) (tu : ToolCB) :
    (stepWriteToFileContent st tu).contentBlocks = st.contentBlocks := by
  rw [stepWriteToFileContent]
  split
  · dsimp only; split <;> rfl
  · rfl

theorem stepInsideTool_blocks (st : PState) (tu : ToolCB) :
    st.contentBlocks <+: (stepInsideTool st tu).contentBlocks := by
  rw [stepInsideTool]
  split
  · exact List.prefix_append _ _
  · rcases hft : allToolParamNames.find? (fun p => (openingTag p).isSuffixOf st.accumulator)
      with _ | p <;> simp only [hft] <;> rw [stepWriteToFileContent_blocks]

theorem stepOutsideTool_blocks (st : PState) (c : Char) :
    st.contentBlocks <+: (stepOutsideTool st c).contentBlocks := by
  rw [stepOutsideTool]
  rcases hft : allToolUseNames.find? (fun t => (openingTag t).isSuffixOf st.accumulator)
    with _ | tname <;> simp only [hft] <;> (try dsimp only)
  · rcases htxt : st.currentText with _ | txt <;> simp only [htxt] <;>
      exact List.prefix_rfl
  · rcases htxt : st.currentText with _ | txt <;> simp only [htxt]
    · exact List.prefix_rfl
    · exact List.prefix_append _ _

theorem pstep_blocks (st : PState) (c : Char) :
    st.contentBlocks <+: (pstep st c).contentBlocks := by
  rw [pstep, pstepCore]
  rcases htu : st.currentToolUse with _ | tu <;> simp only [htu] <;> (try dsimp only)
  · exact stepOutsideTool_blocks
      { st with currentToolUse := none, accumulator := st.accumulator ++ [c] } c
  · split
    · rw [stepParamValue_blocks]
    · exact stepInsideTool_blocks
        { st with currentToolUse := some tu, accumulator := st.accumulator ++ [c] } tu

theorem foldl_pstep_blocks (s : Str) : ∀ st : PState,
    st.contentBlocks <+: (s.foldl pstep st).contentBlocks := by
  induction s with
  | nil => intro st; exact List.prefix_rfl
  | cons c t ih => intro st; exact (pstep_blocks st c).trans (ih (pstep st c))

theorem pfinalize_blocks (st : PState) :
    st.contentBlocks <+: pfinalize st := by
  rw [pfinalize]
  rcases htu : st.currentToolUse with _ | tu <;>
    rcases htxt : st.currentText with _ | txt <;> simp only [htu, htxt] <;> (try dsimp only)
  · exact List.prefix_rfl
  · exact List.prefix_append _ _
  · exact List.prefix_append _ _
  · exact (List.prefix_append _ _).trans (List.prefix_append _ _)

theorem takeWhile_all_append (p : Block → Bool) (l₁ l₂ : List Block)
    (h : ∀ x ∈ l₁, p x = true) :
    (l₁ ++ l₂).takeWhile p = l₁ ++ l₂.takeWhile p := by
  induction l₁ with
  | nil => rfl
  | cons a t ih =>
    have ha := h a (List.mem_cons_self a t)
    simp only [List.cons_append, List.takeWhile_cons, ha]
    rw [ih (fun x hx => h x (List.mem_cons_of_mem a hx))]
    simp

/-- On any input, `completedBlocks` is exactly the loop's emitted block
list: the finalizer appends only partial blocks. -/
theorem completedBlocks_eq (msg : Str) :
    completedBlocks msg = (msg.foldl pstep initPState).contentBlocks := by
  have hinv := pinv_foldl msg initPState pinv_init
  obtain ⟨h1, h2, h3, h4, _⟩ := hinv
  set σ := msg.foldl pstep initPState with hσ
  rw [completedBlocks, parseAssistantMessage, ← hσ, pfinalize]
  rcases htu : σ.currentToolUse with _ | tu <;>
    rcases htxt : σ.currentText with _ | txt <;> simp only [htu, htxt] <;> (try dsimp only)
  · have := takeWhile_all_append (fun b => !b.isPartFlag) σ.contentBlocks []
      (fun b hb => by simp [h1 b hb])
    simpa using this
  · rw [takeWhile_all_append _ _ _ (fun b hb => by simp [h1 b hb])]
    have := h3 txt htxt
    simp [List.takeWhile_cons, Block.isPartFlag, this]
  · rw [takeWhile_all_append _ _ _ (fun b hb => by simp [h1 b hb])]
    have htp := (h2 tu htu).1
    split <;> simp [List.takeWhile_cons, Block.isPartFlag, htp]
  · rcases h4 with h4 | h4
    · rw [htu] at h4; cases h4
    · rw [htxt] at h4; cases h4

/-! ### C6 -/

/-- C6: in every parse result, every block except possibly the last is
completed; hence at most one block is partial and, when present, it is
the last element. -/
theorem c6_at_most_one_partial_last (msg : Str) :
    ((parseAssistantMessage msg).dropLast).all (fun b => !b.isPartFlag) = true := by
  have hinv := pinv_foldl msg initPState pinv_init
  obtain ⟨h1, h2, h3, h4, _⟩ := hinv
  set σ := msg.foldl pstep initPState with hσ
  rw [parseAssistantMessage, ← hσ, pfinalize]
  rcases htu : σ.currentToolUse with _ | tu <;>
    rcases htxt : σ.currentText with _ | txt <;> simp only [htu, htxt] <;> (try dsimp only)
  · exact List.all_eq_true.mpr fun b hb =>
      by simp [h1 b ((List.dropLast_sublist σ.contentBlocks).subset hb)]
  · rw [List.dropLast_concat]
    exact List.all_eq_true.mpr fun b hb => by simp [h1 b hb]
  · rw [List.dropLast_concat]
    exact List.all_eq_true.mpr fun b hb => by simp [h1 b hb]
  · rcases h4 with h4 | h4
    · rw [htu] at h4; cases h4
    · rw [htxt] at h4; cases h4

/-- C2: a diff whose second SEARCH block is empty, reconciled after a first
block already matched at offsets (0,4) of `"foo\nbar\n"`, drives
`ConstructNewFileContent` into the slice `originalContent[4:0]`: a Go
slice-bounds panic, not a normal return. -/
theorem c2_empty_search_after_match_panics :
    constructNewFileContent
      "<<<<<<< SEARCH\nfoo\n=======\nX\n>>>>>>> REPLACE\n<<<<<<< SEARCH\n=======\nY\n>>>>>>> REPLACE".toList
      "foo\nbar\n".toList true = DiffOutcome.goPanic := by decide

/-- C3 counterexample: the search content `"a\nb\n"` has a two-line body,
yet `BlockAnchorFallbackMatch` succeeds on it (it splits into the three
parts `["a", "b", ""]`, passing the `< 3` check of diff.go line 79), so
the claim that every search content with fewer than 3 body lines is
rejected is false. -/
theorem c3_two_line_trailing_newline_anchor_matches :
    blockAnchorFallbackMatch "a\nb\n".toList "a\nb\n".toList 0 = some (0, 4) ∧
    splitNl "a\nb\n".toList = ["a".toList, "b".toList, []] := by decide

/-- C9: on the message `"<execute_command>ls</execute_command>"` (empty
prose before the tool tag) the parser emits a leading completed text block
whose content is the partial tool tag `"<execute_command"`, because the
`tagStart > 0` guard of parser.go line 95 skips the removal the comment
on line 92 announces. -/
theorem c9_empty_prose_keeps_tag_fragment :
    parseAssistantMessage "<execute_command>ls</execute_command>".toList =
      [Block.text "<execute_command".toList false,
       Block.toolUse "execute_command".toList [] false] := by decide

set_option maxRecDepth 8000 in
/-- C4 counterexample: in a `write_to_file` use whose `content` body is
`" a</content>b "`, the stored parameter value is the whitespace-trimmed
`"a</content>b"`, not the verbatim body (embedded `</content>` is kept but
surrounding whitespace is not: parser.go line 69 applies
`strings.TrimSpace`). -/
theorem c4_content_param_not_verbatim :
    parseAssistantMessage
        "<write_to_file><content> a</content>b </content></write_to_file>".toList =
      [Block.text "<write_to_file".toList false,
       Block.toolUse "write_to_file".toList
         [("content".toList, "a</content>b".toList)] false] ∧
    ("a</content>b".toList : Str) ≠ " a</content>b ".toList := by decide

/-- C7 counterexample: extending the message `" "` by `"x"` (no tag is
open, none is closed) rewrites the trailing partial text block's content
from `" "` to `"x"`, which is not a growth of the old content, so a
re-parse does not merely grow the final partial block. -/
theorem c7_partial_block_rewritten :
    parseAssistantMessage " ".toList = [Block.text " ".toList true] ∧
    parseAssistantMessage " x".toList = [Block.text "x".toList true] ∧
    ¬ (" ".toList : Str).IsPrefix ("x".toList : Str) := by decide

/-- C8 counterexample: on a diff whose first block matches and whose second
SEARCH block is empty (so no completed non-empty SEARCH block is
unmatched), `ConstructNewFileContent` neither returns a result nor an
error: it panics on the slice `originalContent[4:0]`, refuting "on every
other input it returns a result and no error". -/
theorem c8_panic_without_unmatched_block :
    constructNewFileContent
        "<<<<<<< SEARCH\nfoo\n=======\nQ\n>>>>>>> REPLACE\n<<<<<<< SEARCH\n=======\nR\n>>>>>>> REPLACE".toList
        "foo\nbar\n".toList false = DiffOutcome.goPanic ∧
    (cnfRun
        "<<<<<<< SEARCH\nfoo\n=======\nQ\n>>>>>>> REPLACE\n<<<<<<< SEARCH\n=======\nR\n>>>>>>> REPLACE".toList
        "foo\nbar\n".toList).1.attempts = [("foo\n".toList, 0)] ∧
    findMatch "foo\nbar\n".toList "foo\n".toList 0 = some (0, 4) := by decide

/-- C10 counterexample: for the diff `"<<<<<<< SEARCH\nfoo\n=======\n<a\n<b"`
(last line `"<b"` is a partial-marker lookalike), re-running
`ConstructNewFileContent` on the text with that last line removed also
drops the new last line `"<a"`, so the results differ. -/
theorem c10_double_drop_differs :
    constructNewFileContent "<<<<<<< SEARCH\nfoo\n=======\n<a\n<b".toList
        "foo\n".toList true = DiffOutcome.ok "<a\nfoo\n".toList ∧
    removeLastLine "<<<<<<< SEARCH\nfoo\n=======\n<a\n<b".toList =
      "<<<<<<< SEARCH\nfoo\n=======\n<a".toList ∧
    constructNewFileContent
        (removeLastLine "<<<<<<< SEARCH\nfoo\n=======\n<a\n<b".toList)
        "foo\n".toList true = DiffOutcome.ok "foo\n".toList := by decide

/-! ### Split/join round trip -/

theorem splitNl_no_nl (x : Str) (h : '\n' ∉ x) : splitNl x = [x] := by
  induction x with
  | nil => rfl
  | cons c t ih =>
    have hc : ¬ c = '\n' := fun hc => h (hc ▸ List.mem_cons_self c t)
    simp only [splitNl, if_neg hc, ih (fun ht => h (List.mem_cons_of_mem c ht))]

theorem splitNl_append_nl (x rest : Str) (h : '\n' ∉ x) :
    splitNl (x ++ '\n' :: rest) = x :: splitNl rest := by
  induction x with
  | nil => simp [splitNl]
  | cons c t ih =>
    have hc : ¬ c = '\n' := fun hc => h (hc ▸ List.mem_cons_self c t)
    have iht := ih (fun ht => h (List.mem_cons_of_mem c ht))
    simp only [List.cons_append, splitNl, if_neg hc]
    rw [show t.append ('\n' :: rest) = t ++ '\n' :: rest from rfl, iht]

theorem splitNl_joinLines :
    ∀ xs : List Str, xs ≠ [] → (∀ x ∈ xs, '\n' ∉ x) → splitNl (joinLines xs) = xs
  | [], hne, _ => absurd rfl hne
  | [x], _, h => by
    rw [joinLines]
    exact splitNl_no_nl x (h x (List.mem_singleton.mpr rfl))
  | x :: y :: xs, _, h => by
    rw [joinLines, splitNl_append_nl x _ (h x (List.mem_cons_self _ _))]
    rw [splitNl_joinLines (y :: xs) (by simp) (fun z hz => h z (List.mem_cons_of_mem x hz))]

/-! ### Stepping lemmas for the diff loop -/

theorem processLines_cons_inl (C l : Str) (ls : List Str) (st st' : DiffState)
    (h : processLine C l st = Sum.inl st') :
    processLines C (l :: ls) st = processLines C ls st' := by
  rw [processLines, h]

theorem processLine_marker_s (C : Str) (st : DiffState) :
    processLine C searchMarker st = Sum.inl { st with
      inSearch := true
      currentSearchContent := []
      currentReplaceContent := [] } := by
  rw [processLine, if_pos rfl]

theorem processLine_marker_r (C : Str) (st : DiffState) :
    processLine C replaceMarker st = Sum.inl { st with
      lastProcessedIndex := st.searchEndIndex
      inSearch := false
      inReplace := false
      currentSearchContent := []
      currentReplaceContent := []
      searchMatchIndex := -1
      searchEndIndex := -1 } := by
  rw [processLine, if_neg (by decide), if_neg (by decide), if_pos rfl]

theorem processLine_content_replace (C line : Str) (st : DiffState)
    (h1 : line ≠ searchMarker) (h2 : line ≠ dividerMarker) (h3 : line ≠ replaceMarker)
    (h4 : st.inSearch = false) (h5 : st.inReplace = true) (h6 : st.searchMatchIndex ≠ -1) :
    processLine C line st = Sum.inl { st with
      currentReplaceContent := st.currentReplaceContent ++ line ++ ['\n']
      result := st.result ++ line ++ ['\n'] } := by
  rw [processLine, if_neg h1, if_neg h2, if_neg h3, if_neg (by simp [h4]),
    if_pos (by simp [h5]), if_pos h6]

theorem processLine_divider_empty_search (C : Str) (st : DiffState)
    (hcs : st.currentSearchContent = []) (hlpi : st.lastProcessedIndex = 0) :
    processLine C dividerMarker st = Sum.inl { st with
      inSearch := false
      inReplace := true
      searchMatchIndex := 0
      searchEndIndex := ((if C.length = 0 then (0, 0) else (0, C.length) : Nat × Nat).2 : Int)
      result := st.result ++ []
      matchTrace := st.matchTrace ++
        [(st.currentSearchContent, 0,
          (if C.length = 0 then (0, 0) else (0, C.length) : Nat × Nat).2)] } := by
  rw [processLine, if_neg (by decide), if_pos rfl, handleDivider]
  dsimp only
  rw [if_pos hcs, hlpi]
  have hfst : (if C.length = 0 then ((0, 0) : Nat × Nat) else (0, C.length)).1 = 0 := by
    split <;> rfl
  rw [hfst]
  have hslice : goSlice C 0 ((0 : Nat) : Int) = some [] := by simp [goSlice]
  rw [hslice]
  rw [hcs]
  rfl

/-! ### C1 -/

theorem processLines_replace_lines (C : Str) (tail : List Str) :
    ∀ (rs : List Str) (st : DiffState),
    st.inSearch = false → st.inReplace = true → st.searchMatchIndex ≠ -1 →
    (∀ r ∈ rs, r ≠ searchMarker ∧ r ≠ dividerMarker ∧ r ≠ replaceMarker) →
    processLines C (rs ++ tail) st =
      processLines C tail
        { st with
          currentReplaceContent := st.currentReplaceContent ++ joinNl rs
          result := st.result ++ joinNl rs } := by
  intro rs
  induction rs with
  | nil =>
    intro st h1 h2 h3 hr
    simp [joinNl]
  | cons r rs ih =>
    intro st h1 h2 h3 hr
    obtain ⟨hr1, hr2, hr3⟩ := hr r (List.mem_cons_self r rs)
    rw [List.cons_append,
      processLines_cons_inl C r _ st _ (processLine_content_replace C r st hr1 hr2 hr3 h1 h2 h3)]
    rw [ih { st with
        currentReplaceContent := st.currentReplaceContent ++ r ++ ['\n']
        result := st.result ++ r ++ ['\n'] } h1 h2 h3
      (fun x hx => hr x (List.mem_cons_of_mem r hx))]
    simp [joinNl, List.append_assoc]

/-- C1: a diff consisting of one SEARCH/REPLACE block with an empty search
section and replace lines `rs` reconciles, on a final chunk, to exactly
the replace body `joinNl rs` with no error, for every original content:
when the original is non-empty the whole file is replaced, and when it is
empty the body is inserted as the new file. -/
theorem c1_empty_search_round_trip (C : Str) (rs : List Str)
    (h : ∀ r ∈ rs,
      r ≠ searchMarker ∧ r ≠ dividerMarker ∧ r ≠ replaceMarker ∧ '\n' ∉ r) :
    constructNewFileContent (mkEmptySearchDiff rs) C true = DiffOutcome.ok (joinNl rs) := by
  have hnl : ∀ x ∈ [searchMarker, dividerMarker] ++ rs ++ [replaceMarker], '\n' ∉ x := by
    intro x hx
    rcases List.mem_append.mp hx with hx | hx
    · rcases List.mem_append.mp hx with hx | hx
      · rcases List.mem_cons.mp hx with hx | hx
        · subst hx; decide
        · rcases List.mem_cons.mp hx with hx | hx
          · subst hx; decide
          · cases hx
      · exact (h x hx).2.2.2
    · rcases List.mem_cons.mp hx with hx | hx
      · subst hx; decide
      · cases hx
  have hsplit : splitNl (mkEmptySearchDiff rs) =
      [searchMarker, dividerMarker] ++ rs ++ [replaceMarker] := by
    rw [mkEmptySearchDiff]
    exact splitNl_joinLines _ (by simp) hnl
  have hlines : cnfLines (mkEmptySearchDiff rs) =
      [searchMarker, dividerMarker] ++ rs ++ [replaceMarker] := by
    rw [cnfLines, hsplit, dropPartialMarker]
    rw [List.getLast?_concat]
    dsimp only
    rw [if_neg (by decide)]
  rw [constructNewFileContent, cnfRun, hlines]
  rw [show [searchMarker, dividerMarker] ++ rs ++ [replaceMarker] =
    searchMarker :: dividerMarker :: (rs ++ [replaceMarker]) from rfl]
  rw [processLines_cons_inl C searchMarker _ initDiffState _ (processLine_marker_s C initDiffState)]
  rw [processLines_cons_inl C dividerMarker _ _ _
    (processLine_divider_empty_search C _ rfl rfl)]
  rw [processLines_replace_lines C [replaceMarker] rs _ rfl rfl (by simp)
    (fun r hr => ⟨(h r hr).1, (h r hr).2.1, (h r hr).2.2.1⟩)]
  rw [processLines_cons_inl C replaceMarker [] _ _ (processLine_marker_r C _)]
  rw [processLines]
  dsimp only [initDiffState]
  by_cases hC : C.length = 0
  · rw [List.length_eq_zero] at hC
    subst hC
    simp
  · have hif : (if List.length C = 0 then ((0, 0) : Nat × Nat) else (0, List.length C)) =
        (0, List.length C) := if_neg hC
    rw [hif]
    rw [if_neg (by simp)]
    simp

/-! ### C10 -/

theorem splitNl_ne_nil : ∀ s : Str, splitNl s ≠ []
  | [] => by simp [splitNl]
  | c :: t => by
    rw [splitNl]
    split
    · simp
    · rcases ht : splitNl t with _ | ⟨x, xs⟩ <;> simp

theorem splitNl_mem_no_nl : ∀ (s : Str), ∀ x ∈ splitNl s, '\n' ∉ x
  | [] => by
    intro x hx
    rw [splitNl] at hx
    rcases List.mem_singleton.mp hx with rfl
    simp
  | c :: t => by
    intro x hx
    rw [splitNl] at hx
    by_cases hc : c = '\n'
    · rw [if_pos hc] at hx
      rcases List.mem_cons.mp hx with hx | hx
      · subst hx; simp
      · exact splitNl_mem_no_nl t x hx
    · rw [if_neg hc] at hx
      rcases ht : splitNl t with _ | ⟨y, ys⟩
      · exact absurd ht (splitNl_ne_nil t)
      · rw [ht] at hx
        rcases List.mem_cons.mp hx with hx | hx
        · subst hx
          intro hmem
          rcases List.mem_cons.mp hmem with hmem | hmem
          · exact hc hmem.symm
          · exact splitNl_mem_no_nl t y (ht ▸ List.mem_cons_self y ys) hmem
        · exact splitNl_mem_no_nl t x (ht ▸ List.mem_cons_of_mem y hx)

theorem dropPartialMarker_of_partial (lines : List Str) (l : Str)
    (hl : lines.getLast? = some l) (hpm : looksLikePartialMarker l = true) :
    dropPartialMarker lines = lines.dropLast := by
  rw [dropPartialMarker, hl]
  dsimp only
  rw [if_pos hpm]

theorem dropPartialMarker_of_safe (lines : List Str) (l : Str)
    (hl : lines.getLast? = some l) (hpm : looksLikePartialMarker l = false) :
    dropPartialMarker lines = lines := by
  rw [dropPartialMarker, hl]
  dsimp only
  rw [if_neg (by simp [hpm])]

/-- C10 (amended): dropping the partial-marker-lookalike last line and
re-running `ConstructNewFileContent` gives the same result and error,
provided the preceding line is not itself a partial-marker lookalike
(otherwise the re-run drops it too, see the counterexample). -/
theorem c10_drop_last_line_equiv (d C : Str) (f : Bool) (l l' : Str)
    (hl : (splitNl d).getLast? = some l)
    (hpm : looksLikePartialMarker l = true)
    (hl' : ((splitNl d).dropLast).getLast? = some l')
    (hpm' : looksLikePartialMarker l' = false) :
    constructNewFileContent d C f = constructNewFileContent (removeLastLine d) C f := by
  have e1 : cnfLines d = (splitNl d).dropLast := by
    rw [cnfLines]
    exact dropPartialMarker_of_partial _ _ hl hpm
  have hne : (splitNl d).dropLast ≠ [] := by
    intro he
    rw [he] at hl'
    cases hl'
  have e2 : splitNl (removeLastLine d) = (splitNl d).dropLast := by
    rw [removeLastLine]
    exact splitNl_joinLines _ hne
      (fun x hx => splitNl_mem_no_nl d x ((List.dropLast_sublist _).subset hx))
  have e3 : cnfLines (removeLastLine d) = (splitNl d).dropLast := by
    rw [cnfLines, e2]
    exact dropPartialMarker_of_safe _ _ hl' hpm'
  rw [constructNewFileContent, constructNewFileContent, cnfRun, cnfRun, e1, e3]

/-- Witness for C10 on the diff `"hello\n<x"` against original `"q"`. -/
theorem c10_drop_last_line_equiv_witness :
    (splitNl "hello\n<x".toList).getLast? = some "<x".toList ∧
    looksLikePartialMarker "<x".toList = true ∧
    ((splitNl "hello\n<x".toList).dropLast).getLast? = some "hello".toList ∧
    looksLikePartialMarker "hello".toList = false ∧
    constructNewFileContent "hello\n<x".toList "q".toList true =
      constructNewFileContent (removeLastLine "hello\n<x".toList) "q".toList true :=
  ⟨by decide, by decide, by decide, by decide,
   c10_drop_last_line_equiv "hello\n<x".toList "q".toList true "<x".toList "hello".toList
     (by decide) (by decide) (by decide) (by decide)⟩

/-- Witness for C1: the spec's instance `C = "line1\nline2\n"`,
`R = "new\n"` yields exactly `"new\n"`. -/
theorem c1_empty_search_round_trip_witness :
    (∀ r ∈ ["new".toList],
      r ≠ searchMarker ∧ r ≠ dividerMarker ∧ r ≠ replaceMarker ∧ '\n' ∉ r) ∧
    constructNewFileContent (mkEmptySearchDiff ["new".toList]) "line1\nline2\n".toList true =
      DiffOutcome.ok "new\n".toList :=
  ⟨by decide,
   c1_empty_search_round_trip "line1\nline2\n".toList ["new".toList] (by decide)⟩

/-! ### C7 -/

/-- C7 (amended): re-parsing after any continuation of the stream leaves
every completed block intact: the completed (non-partial) blocks of
`parse T` are an unchanged leading prefix of `parse (T ++ s)` for every
continuation `s`; the trailing partial block, however, is not merely
grown — it may complete, be superseded by a new block, or have its
whitespace-trimmed content rewritten (see the counterexample). -/
theorem c7_completed_blocks_preserved (T s : Str) :
    completedBlocks T <+: parseAssistantMessage (T ++ s) := by
  rw [completedBlocks_eq, parseAssistantMessage, List.foldl_append]
  exact (foldl_pstep_blocks s (T.foldl pstep initPState)).trans
    (pfinalize_blocks (s.foldl pstep (T.foldl pstep initPState)))

/-! ### C4 -/

theorem blockParamsTrimmed_of (b : Block)
    (h : ∀ n ps p, b = Block.toolUse n ps p → trimmedParams ps) :
    blockParamsTrimmed b = true := by
  cases b with
  | text cnt pa => rfl
  | toolUse n ps pa =>
    rw [blockParamsTrimmed]
    exact List.all_eq_true.mpr fun kv hkv => beq_iff_eq.mpr (h n ps pa rfl kv hkv)

set_option maxRecDepth 8000 in
/-- C4 (amended): every parameter value stored by `ParseAssistantMessage`
is trimmed of leading/trailing whitespace — including the `content`
parameter of `write_to_file`, which is special only in that its value is
re-derived from the text between the first `<content>` tag and the last
`</content>` tag of the tool's accumulated text (preserving embedded
closing-tag-like substrings) and then trimmed. -/
theorem c4_params_trimmed_including_content :
    (∀ msg : Str, (parseAssistantMessage msg).all blockParamsTrimmed = true) ∧
    parseAssistantMessage
        "<write_to_file><content> x</content>y </content></write_to_file>".toList =
      [Block.text "<write_to_file".toList false,
       Block.toolUse "write_to_file".toList
         [("content".toList, "x</content>y".toList)] false] := by
  constructor
  · intro msg
    have hinv := pinv_foldl msg initPState pinv_init
    obtain ⟨h1, h2, h3, h4, h5⟩ := hinv
    set σ := msg.foldl pstep initPState with hσ
    rw [parseAssistantMessage, ← hσ, pfinalize]
    rcases htu : σ.currentToolUse with _ | tu <;>
      rcases htxt : σ.currentText with _ | txt <;> simp only [htu, htxt] <;> (try dsimp only)
    · exact List.all_eq_true.mpr fun b hb => blockParamsTrimmed_of b (h5 b hb)
    · refine List.all_eq_true.mpr fun b hb => ?_
      rcases List.mem_append.mp hb with hb | hb
      · exact blockParamsTrimmed_of b (h5 b hb)
      · simp only [List.mem_singleton] at hb
        subst hb
        rfl
    · refine List.all_eq_true.mpr fun b hb => ?_
      rcases List.mem_append.mp hb with hb | hb
      · exact blockParamsTrimmed_of b (h5 b hb)
      · simp only [List.mem_singleton] at hb
        subst hb
        apply blockParamsTrimmed_of
        intro n ps pa hbe
        cases hbe
        split
        · exact trimmedParams_setParam _ _ (trimSpace_idem _) _ (h2 tu htu).2
        · exact (h2 tu htu).2
    · rcases h4 with h4 | h4
      · rw [htu] at h4; cases h4
      · rw [htxt] at h4; cases h4
  · decide

/-! ### Trace lemmas for the diff loop -/

theorem handleDivider_trace_mono (C : Str) (st : DiffState) :
    st.matchTrace <+: (stepState (handleDivider C st)).matchTrace := by
  rw [handleDivider]
  dsimp only
  repeat' split
  all_goals simp only [stepState]
  all_goals first
    | exact List.prefix_rfl
    | exact List.prefix_append _ _

theorem processLine_trace_mono (C l : Str) (st : DiffState) :
    st.matchTrace <+: (stepState (processLine C l st)).matchTrace := by
  rw [processLine]
  by_cases h1 : l = searchMarker
  · rw [if_pos h1]; exact List.prefix_rfl
  · rw [if_neg h1]
    by_cases h2 : l = dividerMarker
    · rw [if_pos h2]; exact handleDivider_trace_mono C st
    · rw [if_neg h2]
      repeat' split
      all_goals simp only [stepState]
      all_goals exact List.prefix_rfl

theorem processLines_trace_mono (C : Str) : ∀ (lines : List Str) (st : DiffState),
    st.matchTrace <+: (processLines C lines st).1.matchTrace := by
  intro lines
  induction lines with
  | nil => intro st; exact List.prefix_rfl
  | cons l ls ih =>
    intro st
    have hstep := processLine_trace_mono C l st
    rw [processLines]
    rcases hpl : processLine C l st with st' | ⟨ab, st'⟩ <;> rw [hpl] at hstep <;>
      simp only [stepState] at hstep <;> dsimp only
    · exact hstep.trans (ih st')
    · exact hstep

theorem handleDivider_attempts (C : Str) (st : DiffState) :
    (∀ st', handleDivider C st = Sum.inl st' →
      st'.attempts = st.attempts ∨
      ∃ p, st'.attempts = st.attempts ++ [p] ∧ findMatch C p.1 p.2 ≠ none) ∧
    (∀ st' msg, handleDivider C st = Sum.inr (DiffAbort.fail msg, st') →
      ∃ p, st'.attempts = st.attempts ++ [p] ∧ findMatch C p.1 p.2 = none) := by
  rw [handleDivider]
  dsimp only
  split
  · -- empty search block
    split
    · exact ⟨(fun st' he => by cases he), (fun st' msg he => by simp at he)⟩
    · refine ⟨fun st' he => ?_, fun st' msg he => by simp at he⟩
      cases he
      exact Or.inl rfl
  · -- non-empty search block
    split
    · exact ⟨(fun st' he => by cases he), (fun st' msg he => by simp at he)⟩
    · (try dsimp only)
      rcases hfm : findMatch C st.currentSearchContent st.lastProcessedIndex.toNat
        with _ | ⟨a, b⟩ <;> (try dsimp only)
      · refine ⟨fun st' he => by simp at he, fun st' msg he => ?_⟩
        simp only [Sum.inr.injEq, Prod.mk.injEq] at he
        refine ⟨(st.currentSearchContent, st.lastProcessedIndex.toNat), ?_, hfm⟩
        rw [← he.2]
      · refine ⟨fun st' he => ?_, fun st' msg he => ?_⟩
        · split at he
          · cases he
          · cases he
            exact Or.inr ⟨(st.currentSearchContent, st.lastProcessedIndex.toNat), rfl,
              by rw [hfm]; simp⟩
        · split at he <;> simp at he

theorem processLine_attempts (C l : Str) (st : DiffState) :
    (∀ st', processLine C l st = Sum.inl st' →
      st'.attempts = st.attempts ∨
      ∃ p, st'.attempts = st.attempts ++ [p] ∧ findMatch C p.1 p.2 ≠ none) ∧
    (∀ st' msg, processLine C l st = Sum.inr (DiffAbort.fail msg, st') →
      ∃ p, st'.attempts = st.attempts ++ [p] ∧ findMatch C p.1 p.2 = none) := by
  rw [processLine]
  by_cases h1 : l = searchMarker
  · rw [if_pos h1]
    exact ⟨fun st' he => by cases he; exact Or.inl rfl, fun st' msg he => by cases he⟩
  · rw [if_neg h1]
    by_cases h2 : l = dividerMarker
    · rw [if_pos h2]
      exact handleDivider_attempts C st
    · rw [if_neg h2]
      refine ⟨fun st' he => ?_, fun st' msg he => ?_⟩
      · split at he
        · cases he; exact Or.inl rfl
        · split at he
          · cases he; exact Or.inl rfl
          · split at he
            · cases he; exact Or.inl rfl
            · cases he; exact Or.inl rfl
      · split at he
        · cases he
        · split at he
          · cases he
          · split at he
            · cases he
            · cases he

theorem processLines_attempts (C : Str) : ∀ (lines : List Str) (st : DiffState),
    attemptsOK C st →
    (∀ st', processLines C lines st = (st', none) → attemptsOK C st') ∧
    (∀ st' msg, processLines C lines st = (st', some (DiffAbort.fail msg)) →
      ∃ p ∈ st'.attempts, findMatch C p.1 p.2 = none) := by
  intro lines
  induction lines with
  | nil =>
    intro st h
    refine ⟨fun st' he => ?_, fun st' msg he => ?_⟩
    · rw [processLines] at he
      cases he
      exact h
    · rw [processLines] at he
      cases he
  | cons l ls ih =>
    intro st h
    have hline := processLine_attempts C l st
    refine ⟨fun st' he => ?_, fun st' msg he => ?_⟩
    · rw [processLines] at he
      rcases hpl : processLine C l st with st1 | ⟨ab, st1⟩ <;> rw [hpl] at he
      · rcases hline.1 st1 hpl with ha | ⟨p, hp1, hp2⟩
        · exact (ih st1 (by rw [attemptsOK, ha]; exact h)).1 st' he
        · refine (ih st1 ?_).1 st' he
          intro q hq
          rw [hp1] at hq
          rcases List.mem_append.mp hq with hq | hq
          · exact h q hq
          · rcases List.mem_singleton.mp hq with rfl
            exact hp2
      · cases he
    · rw [processLines] at he
      rcases hpl : processLine C l st with st1 | ⟨ab, st1⟩ <;> rw [hpl] at he
      · rcases hline.1 st1 hpl with ha | ⟨p, hp1, hp2⟩
        · exact (ih st1 (by rw [attemptsOK, ha]; exact h)).2 st' msg he
        · refine (ih st1 ?_).2 st' msg he
          intro q hq
          rw [hp1] at hq
          rcases List.mem_append.mp hq with hq | hq
          · exact h q hq
          · rcases List.mem_singleton.mp hq with rfl
            exact hp2
      · cases he
        rcases hline.2 st' msg hpl with ⟨p, hp1, hp2⟩
        exact ⟨p, by rw [hp1]; exact List.mem_append_right _ (List.mem_singleton.mpr rfl), hp2⟩

/-! ### Bounds for the fallback matchers -/

theorem cumLen_mono : ∀ (lines : List Str) (i j : Nat), i ≤ j →
    cumLen lines i ≤ cumLen lines j
  | _, 0, _, _ => by
    rw [cumLen]
    exact Nat.zero_le _
  | [], _ + 1, _, _ => by
    rw [cumLen]
    exact Nat.zero_le _
  | l :: rest, i + 1, j, h => by
    cases j with
    | zero => omega
    | succ j' =>
      rw [cumLen, cumLen]
      have := cumLen_mono rest i j' (by omega)
      omega

theorem fsln_ge : ∀ (lines : List Str) (si cur : Nat),
    si ≤ cur + cumLen lines lines.length →
    si ≤ cur + cumLen lines (fsln lines si cur)
  | [], si, cur, h => by
    rw [fsln]
    simpa [cumLen] using (by simpa [cumLen] using h : si ≤ cur)
  | l :: rest, si, cur, h => by
    rw [fsln]
    split
    · have hrec := fsln_ge rest si (cur + l.length + 1) (by
        rw [List.length_cons, cumLen] at h
        omega)
      rw [cumLen]
      omega
    · rw [cumLen]
      omega

theorem cumLen_splitNl (C : Str) : cumLen (splitNl C) (splitNl C).length = C.length + 1 := by
  induction C with
  | nil => rfl
  | cons c t ih =>
    rw [splitNl]
    by_cases hc : c = '\n'
    · rw [if_pos hc]
      rw [List.length_cons, cumLen]
      simp only [List.length_nil, List.length_cons, ih]
      omega
    · rw [if_neg hc]
      rcases ht : splitNl t with _ | ⟨y, ys⟩
      · exact absurd ht (splitNl_ne_nil t)
      · rw [ht] at ih
        rw [List.length_cons, cumLen] at ih ⊢
        simp only [List.length_cons] at ih ⊢
        omega

theorem ltScan_bounds (ol sl : List Str) : ∀ (i fuel j : Nat),
    ltScan ol sl i fuel = some j → i ≤ j ∧ j < i + fuel
  | i, 0, j, h => by rw [ltScan] at h; cases h
  | i, fuel + 1, j, h => by
    rw [ltScan] at h
    split at h
    · cases h
      omega
    · have := ltScan_bounds ol sl (i + 1) fuel j h
      omega

theorem baScan_bounds (ol : List Str) (fls lls : Str) (sz : Nat) : ∀ (i fuel j : Nat),
    baScan ol fls lls sz i fuel = some j → i ≤ j ∧ j < i + fuel
  | i, 0, j, h => by rw [baScan] at h; cases h
  | i, fuel + 1, j, h => by
    rw [baScan] at h
    split at h
    · cases h
      omega
    · have := baScan_bounds ol fls lls sz (i + 1) fuel j h
      omega

theorem splitNl_singleton : ∀ (s x : Str), splitNl s = [x] → s = x
  | [], x, h => by
    rw [splitNl] at h
    cases h
    rfl
  | c :: t, x, h => by
    rw [splitNl] at h
    split at h
    · rw [List.cons_eq_cons] at h
      exact absurd h.2 (splitNl_ne_nil t)
    · rcases ht : splitNl t with _ | ⟨y, ys⟩
      · exact absurd ht (splitNl_ne_nil t)
      · rw [ht] at h
        rw [List.cons_eq_cons] at h
        obtain ⟨hx, hys⟩ := h
        subst hys
        rw [← hx, splitNl_singleton t y ht]

theorem dropTrailingEmpty_splitNl_ne_nil (s : Str) (hs : s ≠ []) :
    dropTrailingEmpty (splitNl s) ≠ [] := by
  rw [dropTrailingEmpty]
  split
  · rename_i hcond
    intro hd
    have hlen := congrArg List.length hd
    rw [List.length_dropLast] at hlen
    simp only [List.length_nil] at hlen
    -- splitNl s is a singleton [x] with getLast? = some x = some []
    rcases hsp : splitNl s with _ | ⟨x, xs⟩
    · exact splitNl_ne_nil s hsp
    · rw [hsp] at hlen hcond
      have hxs : xs = [] := by
        simp only [List.length_cons] at hlen
        exact List.length_eq_zero.mp (by omega)
      subst hxs
      have hx : x = [] := by
        have := hcond.2
        simp only [List.getLast?_singleton, Option.some.injEq] at this
        exact this
      subst hx
      exact hs (splitNl_singleton s [] hsp)
  · exact splitNl_ne_nil s

theorem dropTrailingEmpty_length (xs : List Str) :
    xs.length - 1 ≤ (dropTrailingEmpty xs).length := by
  rw [dropTrailingEmpty]
  split
  · rw [List.length_dropLast]
  · omega

theorem lineTrimmedFallbackMatch_bounds (C s : Str) (idx : Nat) (a b : Nat)
    (hidx : idx ≤ C.length) (hs : s ≠ [])
    (h : lineTrimmedFallbackMatch C s idx = some (a, b)) : idx ≤ a ∧ a < b := by
  rw [lineTrimmedFallbackMatch] at h
  (try dsimp only at h)
  split at h
  · rename_i hg
    rcases hscan : ltScan (splitNl C) (dropTrailingEmpty (splitNl s))
        (fsln (splitNl C) idx 0)
        ((splitNl C).length - (dropTrailingEmpty (splitNl s)).length + 1 -
          fsln (splitNl C) idx 0) with _ | i
    · rw [hscan] at h
      cases h
    · rw [hscan] at h
      cases h
      obtain ⟨hi1, hi2⟩ := ltScan_bounds _ _ _ _ _ hscan
      have hsl1 : 1 ≤ (dropTrailingEmpty (splitNl s)).length := by
        have hne := dropTrailingEmpty_splitNl_ne_nil s hs
        cases hd : dropTrailingEmpty (splitNl s) with
        | nil => exact absurd hd hne
        | cons y ys => simp
      constructor
      · have hge := fsln_ge (splitNl C) idx 0 (by rw [cumLen_splitNl]; omega)
        have hmono := cumLen_mono (splitNl C) (fsln (splitNl C) idx 0) i hi1
        omega
      · -- b = a + cumLen (drop i) searchLen with searchLen ≥ 1 and drop i ≠ []
        have hilt : i < (splitNl C).length := by omega
        have hdrop : (splitNl C).drop i = (splitNl C)[i] :: (splitNl C).drop (i + 1) :=
          List.drop_eq_getElem_cons hilt
        rw [hdrop]
        rcases hsl : (dropTrailingEmpty (splitNl s)).length with _ | m
        · omega
        · rw [cumLen]
          omega
  · cases h

theorem blockAnchorFallbackMatch_bounds (C s : Str) (idx : Nat) (a b : Nat)
    (hidx : idx ≤ C.length)
    (h : blockAnchorFallbackMatch C s idx = some (a, b)) : idx ≤ a ∧ a < b := by
  rw [blockAnchorFallbackMatch] at h
  (try dsimp only at h)
  split at h
  · cases h
  · rename_i hlen3
    split at h
    · rename_i hg
      rcases hscan : baScan (splitNl C) (trimSpace ((dropTrailingEmpty (splitNl s)).getD 0 []))
          (trimSpace ((dropTrailingEmpty (splitNl s)).getD
            ((dropTrailingEmpty (splitNl s)).length - 1) []))
          (dropTrailingEmpty (splitNl s)).length (fsln (splitNl C) idx 0)
          ((splitNl C).length - (dropTrailingEmpty (splitNl s)).length + 1 -
            fsln (splitNl C) idx 0) with _ | i
      · rw [hscan] at h
        cases h
      · rw [hscan] at h
        cases h
        obtain ⟨hi1, hi2⟩ := baScan_bounds _ _ _ _ _ _ _ hscan
        have hsl1 : 1 ≤ (dropTrailingEmpty (splitNl s)).length := by
          have := dropTrailingEmpty_length (splitNl s)
          omega
        constructor
        · have hge := fsln_ge (splitNl C) idx 0 (by rw [cumLen_splitNl]; omega)
          have hmono := cumLen_mono (splitNl C) (fsln (splitNl C) idx 0) i hi1
          omega
        · have hilt : i < (splitNl C).length := by omega
          have hdrop : (splitNl C).drop i =
              (splitNl C)[i] :: (splitNl C).drop (i + 1) :=
            List.drop_eq_getElem_cons hilt
          rw [hdrop]
          rcases hsl : (dropTrailingEmpty (splitNl s)).length with _ | m
          · omega
          · rw [cumLen]
            omega
    · cases h

theorem findMatch_bounds (C s : Str) (lpi : Nat) (a b : Nat)
    (hl : lpi ≤ C.length) (hs : s ≠ [])
    (h : findMatch C s lpi = some (a, b)) : lpi ≤ a ∧ a < b := by
  rw [findMatch] at h
  rcases hfi : firstIndexOf (C.drop lpi) s with _ | k <;> rw [hfi] at h
  · rcases hlt : lineTrimmedFallbackMatch C s lpi with _ | p <;> rw [hlt] at h
    · exact blockAnchorFallbackMatch_bounds C s lpi a b hl h
    · cases h
      exact lineTrimmedFallbackMatch_bounds C s lpi a b hl hs hlt
  · cases h
    have hslen : 1 ≤ s.length := by
      cases s with
      | nil => exact absurd rfl hs
      | cons c t => simp
    omega

/-! ### C5 -/

theorem lastStop_append (lo : Nat) (ms : List (Str × Nat × Nat)) (s : Str) (a b : Nat) :
    lastStop lo (ms ++ [(s, a, b)]) = b := by
  induction ms generalizing lo with
  | nil => rfl
  | cons m rest ih =>
    obtain ⟨s', a', b'⟩ := m
    rw [List.cons_append, lastStop]
    exact ih b'

theorem matchChain_append (lo : Nat) (ms : List (Str × Nat × Nat)) (s : Str) (a b : Nat)
    (hc : matchChain lo ms = true) (hs : lastStop lo ms ≤ a) (hab : a < b) :
    matchChain lo (ms ++ [(s, a, b)]) = true := by
  induction ms generalizing lo with
  | nil =>
    rw [lastStop] at hs
    rw [List.nil_append, matchChain, matchChain]
    simp [hs, hab]
  | cons m rest ih =>
    obtain ⟨s', a', b'⟩ := m
    rw [List.cons_append, matchChain]
    rw [matchChain] at hc
    rw [lastStop] at hs
    simp only [Bool.and_eq_true, decide_eq_true_eq] at hc ⊢
    exact ⟨⟨hc.1.1, hc.1.2⟩, ih b' hc.2 hs⟩

theorem goSliceFrom_some_bounds (sC : Str) (a : Int) (r : Str)
    (h : goSliceFrom sC a = some r) : 0 ≤ a ∧ a ≤ (sC.length : Int) := by
  rw [goSliceFrom] at h
  split at h
  · rename_i hcond
    exact hcond
  · cases h

theorem processLine_other (C l : Str) (st : DiffState)
    (h1 : l ≠ searchMarker) (h2 : l ≠ dividerMarker) (h3 : l ≠ replaceMarker) :
    ∃ st', processLine C l st = Sum.inl st' ∧ st'.matchTrace = st.matchTrace ∧
      st'.lastProcessedIndex = st.lastProcessedIndex ∧
      st'.searchEndIndex = st.searchEndIndex := by
  rw [processLine, if_neg h1, if_neg h2, if_neg h3]
  split
  · exact ⟨_, rfl, rfl, rfl, rfl⟩
  · split
    · exact ⟨_, rfl, rfl, rfl, rfl⟩
    · exact ⟨_, rfl, rfl, rfl, rfl⟩

theorem processLine_divider (C : Str) (st : DiffState) :
    processLine C dividerMarker st = handleDivider C st := by
  rw [processLine, if_neg (by decide), if_pos rfl]

theorem handleDivider_cases (C : Str) (st : DiffState) :
    (∃ st1, handleDivider C st = Sum.inl st1 ∧
      ((st.currentSearchContent = [] ∧ ∃ q : Nat × Nat,
          st1.matchTrace = st.matchTrace ++ [(st.currentSearchContent, q)]) ∨
       (st.currentSearchContent ≠ [] ∧ ∃ a b,
          0 ≤ st.lastProcessedIndex ∧ st.lastProcessedIndex ≤ (C.length : Int) ∧
          findMatch C st.currentSearchContent st.lastProcessedIndex.toNat = some (a, b) ∧
          st1.matchTrace = st.matchTrace ++ [(st.currentSearchContent, a, b)] ∧
          st1.searchEndIndex = (b : Int)))) ∨
    (∃ ab st1, handleDivider C st = Sum.inr (ab, st1) ∧ st1.matchTrace = st.matchTrace) := by
  rw [handleDivider]
  dsimp only
  split
  · rename_i hcs
    split
    · exact Or.inr ⟨_, _, rfl, rfl⟩
    · exact Or.inl ⟨_, rfl, Or.inl ⟨hcs, _, rfl⟩⟩
  · rename_i hcs
    split
    · exact Or.inr ⟨_, _, rfl, rfl⟩
    · rename_i rest' hrest
      have hlb := goSliceFrom_some_bounds C st.lastProcessedIndex rest' hrest
      (try dsimp only)
      rcases hfm : findMatch C st.currentSearchContent st.lastProcessedIndex.toNat
        with _ | ⟨a, b⟩ <;> (try dsimp only)
      · exact Or.inr ⟨_, _, rfl, rfl⟩
      · split
        · exact Or.inr ⟨_, _, rfl, rfl⟩
        · exact Or.inl ⟨_, rfl, Or.inr ⟨hcs, a, b, hlb.1, hlb.2, rfl, rfl, rfl⟩⟩

theorem processLines_chain (C : Str) : ∀ (lines : List Str) (st : DiffState) (k : Nat),
    DInv st k → goodMarkers lines k = true →
    (∀ m ∈ (processLines C lines st).1.matchTrace, m.1 ≠ ([] : Str)) →
    matchChain 0 ((processLines C lines st).1.matchTrace) = true := by
  intro lines
  induction lines with
  | nil =>
    intro st k hinv hgm hne
    rw [processLines]
    exact hinv.1
  | cons l ls ih =>
    intro st k hinv hgm hne
    rw [processLines] at hne ⊢
    by_cases h1 : l = searchMarker
    · subst h1
      rw [goodMarkers, if_pos rfl] at hgm
      simp only [Bool.and_eq_true, decide_eq_true_eq] at hgm
      rw [processLine_marker_s C st] at hne ⊢
      refine ih _ 1 ⟨hinv.1, fun hk => absurd hk (by decide), fun _ => ?_⟩ hgm.2 hne
      exact hinv.2.2 (by rw [hgm.1]; decide)
    · by_cases h2 : l = dividerMarker
      · subst h2
        rw [goodMarkers, if_neg (by decide), if_pos rfl] at hgm
        simp only [Bool.and_eq_true, decide_eq_true_eq] at hgm
        obtain ⟨hk, hgm2⟩ := hgm
        rw [processLine_divider] at hne ⊢
        rcases handleDivider_cases C st with ⟨st1, hhd, hcase⟩ | ⟨ab, st1, hhd, htr⟩
        · rw [hhd] at hne ⊢
          dsimp only at hne ⊢
          rcases hcase with ⟨hcs, q, htr⟩ | ⟨hcs, a, b, hl0, hlC, hfm, htr, hsei⟩
          · exfalso
            have hmem : (st.currentSearchContent, q) ∈
                (processLines C ls st1).1.matchTrace := by
              refine (processLines_trace_mono C ls st1).subset ?_
              rw [htr]
              exact List.mem_append_right _ (List.mem_singleton.mpr rfl)
            exact hne _ hmem hcs
          · have hb := findMatch_bounds C st.currentSearchContent
              st.lastProcessedIndex.toNat a b (by omega) hcs hfm
            have hlast := hinv.2.2 (by rw [hk]; decide)
            refine ih st1 2 ⟨?_, ?_, fun hk2 => absurd rfl hk2⟩ hgm2 hne
            · rw [htr]
              exact matchChain_append 0 st.matchTrace st.currentSearchContent a b
                hinv.1 (by omega) hb.2
            · intro _
              rw [hsei, htr, lastStop_append]
        · rw [hhd] at hne ⊢
          dsimp only at hne ⊢
          rw [htr]
          exact hinv.1
      · by_cases h3 : l = replaceMarker
        · subst h3
          rw [goodMarkers, if_neg (by decide), if_neg (by decide), if_pos rfl] at hgm
          simp only [Bool.and_eq_true, decide_eq_true_eq] at hgm
          obtain ⟨hk, hgm2⟩ := hgm
          rw [processLine_marker_r C st] at hne ⊢
          have hsei := hinv.2.1 hk
          refine ih _ 0 ⟨hinv.1, fun hk0 => absurd hk0 (by decide), fun _ => ?_⟩ hgm2 hne
          constructor
          · rw [hsei]
            exact Int.natCast_nonneg _
          · rw [hsei]
        · rw [goodMarkers, if_neg h1, if_neg h2, if_neg h3] at hgm
          obtain ⟨st', hst', htr, hlpi, hsei⟩ := processLine_other C l st h1 h2 h3
          rw [hst'] at hne ⊢
          refine ih st' k ⟨?_, ?_, ?_⟩ hgm hne
          · rw [htr]
            exact hinv.1
          · intro hk2
            rw [hsei, htr]
            exact hinv.2.1 hk2
          · intro hk2
            rw [hlpi, htr]
            exact hinv.2.2 hk2

/-- C5: whenever the marker lines of the (defensively truncated) diff are
well-formed and every recorded SEARCH body is non-empty, the matches the
loop records advance: each starts at or after the previous match's end
offset and covers a non-empty range of the original content. -/
theorem c5_matches_advance (d C : Str)
    (hgm : goodMarkers (cnfLines d) 0 = true)
    (hne : ∀ m ∈ (cnfRun d C).1.matchTrace, m.1 ≠ ([] : Str)) :
    matchChain 0 ((cnfRun d C).1.matchTrace) = true := by
  rw [cnfRun] at hne ⊢
  refine processLines_chain C (cnfLines d) initDiffState 0 ⟨rfl, ?_, ?_⟩ hgm hne
  · intro hk
    cases hk
  · intro _
    exact ⟨by decide, by decide⟩

theorem processLines_append (C : Str) : ∀ (ls1 ls2 : List Str) (st : DiffState),
    processLines C (ls1 ++ ls2) st =
      match processLines C ls1 st with
      | (st', none) => processLines C ls2 st'
      | (st', some ab) => (st', some ab) := by
  intro ls1
  induction ls1 with
  | nil => intro ls2 st; rfl
  | cons l ls ih =>
    intro ls2 st
    rw [List.cons_append, processLines, processLines]
    rcases processLine C l st with st1 | ⟨ab, st1⟩
    · exact ih ls2 st1
    · rfl

/-- Witness for C5: the spec's `"foo\nbar\nfoo\n"` example, where the
second identical SEARCH block matches the second occurrence at offset 8,
never re-matching offset 0. -/
theorem c5_matches_advance_witness :
    goodMarkers (cnfLines "<<<<<<< SEARCH\nfoo\n=======\nA\n>>>>>>> REPLACE\n<<<<<<< SEARCH\nfoo\n=======\nB\n>>>>>>> REPLACE".toList) 0 = true ∧
    (∀ m ∈ (cnfRun "<<<<<<< SEARCH\nfoo\n=======\nA\n>>>>>>> REPLACE\n<<<<<<< SEARCH\nfoo\n=======\nB\n>>>>>>> REPLACE".toList "foo\nbar\nfoo\n".toList).1.matchTrace, m.1 ≠ ([] : Str)) ∧
    matchChain 0 ((cnfRun "<<<<<<< SEARCH\nfoo\n=======\nA\n>>>>>>> REPLACE\n<<<<<<< SEARCH\nfoo\n=======\nB\n>>>>>>> REPLACE".toList "foo\nbar\nfoo\n".toList).1.matchTrace) = true ∧
    (cnfRun "<<<<<<< SEARCH\nfoo\n=======\nA\n>>>>>>> REPLACE\n<<<<<<< SEARCH\nfoo\n=======\nB\n>>>>>>> REPLACE".toList "foo\nbar\nfoo\n".toList).1.matchTrace =
      [("foo\n".toList, 0, 4), ("foo\n".toList, 8, 12)] := by
  have hsplit : cnfLines "<<<<<<< SEARCH\nfoo\n=======\nA\n>>>>>>> REPLACE\n<<<<<<< SEARCH\nfoo\n=======\nB\n>>>>>>> REPLACE".toList =
      [searchMarker, "foo".toList, dividerMarker, "A".toList, replaceMarker] ++
      [searchMarker, "foo".toList, dividerMarker, "B".toList, replaceMarker] := by decide
  have h1 : processLines "foo\nbar\nfoo\n".toList
      [searchMarker, "foo".toList, dividerMarker, "A".toList, replaceMarker] initDiffState =
      ({ result := "A\n".toList, lastProcessedIndex := 4, currentSearchContent := [],
         currentReplaceContent := [], inSearch := false, inReplace := false,
         searchMatchIndex := -1, searchEndIndex := -1,
         attempts := [("foo\n".toList, 0)],
         matchTrace := [("foo\n".toList, 0, 4)] }, none) := by decide
  have h2 : processLines "foo\nbar\nfoo\n".toList
      [searchMarker, "foo".toList, dividerMarker, "B".toList, replaceMarker]
      { result := "A\n".toList, lastProcessedIndex := 4, currentSearchContent := [],
        currentReplaceContent := [], inSearch := false, inReplace := false,
        searchMatchIndex := -1, searchEndIndex := -1,
        attempts := [("foo\n".toList, 0)],
        matchTrace := [("foo\n".toList, 0, 4)] } =
      ({ result := "A\nbar\nB\n".toList, lastProcessedIndex := 12, currentSearchContent := [],
         currentReplaceContent := [], inSearch := false, inReplace := false,
         searchMatchIndex := -1, searchEndIndex := -1,
         attempts := [("foo\n".toList, 0), ("foo\n".toList, 4)],
         matchTrace := [("foo\n".toList, 0, 4), ("foo\n".toList, 8, 12)] }, none) := by decide
  have hrun : (cnfRun "<<<<<<< SEARCH\nfoo\n=======\nA\n>>>>>>> REPLACE\n<<<<<<< SEARCH\nfoo\n=======\nB\n>>>>>>> REPLACE".toList "foo\nbar\nfoo\n".toList).1.matchTrace =
      [("foo\n".toList, 0, 4), ("foo\n".toList, 8, 12)] := by
    rw [cnfRun, hsplit, processLines_append, h1]
    dsimp only
    rw [h2]
  refine ⟨by decide, ?_, ?_, hrun⟩
  · rw [hrun]
    decide
  · exact c5_matches_advance
      "<<<<<<< SEARCH\nfoo\n=======\nA\n>>>>>>> REPLACE\n<<<<<<< SEARCH\nfoo\n=======\nB\n>>>>>>> REPLACE".toList
      "foo\nbar\nfoo\n".toList (by decide) (by rw [hrun]; decide)

/-! ### C8 -/

/-- C8 (amended): `ConstructNewFileContent` fails closed up to Go panics:
whenever it returns an error the accompanying result string is empty and
some completed non-empty SEARCH block found no match — by the exact,
line-trimmed, or block-anchor strategy — from the carried
`lastProcessedIndex` onward; and whenever it returns a result with no
error, every completed non-empty SEARCH block found a match. (As stated,
the claim is false: on some inputs with no unmatched block the function
panics on an out-of-range slice instead of returning a result, see the
counterexample.) -/
theorem c8_error_iff_unmatched (d C : Str) (f : Bool) :
    (∀ res msg, constructNewFileContent d C f = DiffOutcome.errRes res msg →
      res = [] ∧ ∃ p ∈ (cnfRun d C).1.attempts, findMatch C p.1 p.2 = none) ∧
    (∀ res, constructNewFileContent d C f = DiffOutcome.ok res →
      ∀ p ∈ (cnfRun d C).1.attempts, findMatch C p.1 p.2 ≠ none) := by
  have hmain := processLines_attempts C (cnfLines d) initDiffState
    (by intro p hp; cases hp)
  constructor
  · intro res msg hres
    rw [constructNewFileContent] at hres
    rcases hrun : cnfRun d C with ⟨st, ab⟩
    rw [hrun] at hres
    rcases ab with _ | ab
    · dsimp only at hres
      split at hres
      · split at hres <;> cases hres
      · cases hres
    · rcases ab with msg' | _
      · dsimp only at hres
        rw [DiffOutcome.errRes.injEq] at hres
        have hpl : processLines C (cnfLines d) initDiffState =
            (st, some (DiffAbort.fail msg')) := by
          rw [← cnfRun, hrun]
        refine ⟨hres.1.symm, ?_⟩
        exact hmain.2 st msg' hpl
      · cases hres
  · intro res hres
    rw [constructNewFileContent] at hres
    rcases hrun : cnfRun d C with ⟨st, ab⟩
    rw [hrun] at hres
    rcases ab with _ | ab
    · have hpl : processLines C (cnfLines d) initDiffState = (st, none) := by
        rw [← cnfRun, hrun]
      exact hmain.1 st hpl
    · rcases ab with msg' | _ <;> cases hres

/-- Witness for C8: a diff whose only SEARCH block (`"zzz\n"`) matches
nothing in `"abc"` yields the not-found error with an empty result, and
the failing attempt is recorded. -/
theorem c8_error_iff_unmatched_witness :
    constructNewFileContent "<<<<<<< SEARCH\nzzz\n=======\nw\n>>>>>>> REPLACE".toList
      "abc".toList true = DiffOutcome.errRes [] errSearchNotFound ∧
    (([] : Str) = [] ∧
      ∃ p ∈ (cnfRun "<<<<<<< SEARCH\nzzz\n=======\nw\n>>>>>>> REPLACE".toList
        "abc".toList).1.attempts, findMatch "abc".toList p.1 p.2 = none) :=
  ⟨by decide,
   (c8_error_iff_unmatched "<<<<<<< SEARCH\nzzz\n=======\nw\n>>>>>>> REPLACE".toList
     "abc".toList true).1 [] errSearchNotFound (by decide)⟩

end Goline
